import Mathlib

set_option maxRecDepth 100000

/-!
Verification development for the plasmid designer tool
(`plasmid_designer.py`).  Nucleotide sequences are modelled as `List Char`,
the marker/default-gene JSON databases as association lists
`List (String × List Char)` (Python dicts with unique keys and insertion
order), and machine integers as `Int`/`Nat` (Python ints are unbounded, so
no overflow modelling is needed).
-/

/-- Skew update for one base: `+1` on `'G'`, `-1` on `'C'`, unchanged
otherwise (lines 33-36 of `get_gc_skew_ori`). -/
def skewStep (base : Char) (skew : Int) : Int :=
  if base = 'G' then skew + 1 else if base = 'C' then skew - 1 else skew

/-- The scan loop of `get_gc_skew_ori` (lines 28-40): carries the running
skew, the current minimum `min_skew`, its index `min_idx`, and the
enumeration counter `i`; updates only on strict `skew < min_skew`. -/
def gcScan : List Char → Int → Int → Nat → Nat → Int × Nat
  | [], _, min_skew, min_idx, _ => (min_skew, min_idx)
  | base :: rest, skew, min_skew, min_idx, i =>
    let skew' := skewStep base skew
    if skew' < min_skew then gcScan rest skew' skew' i (i + 1)
    else gcScan rest skew' min_skew min_idx (i + 1)

/-- The `min_idx` computed by the scan loop, starting from
`skew = 0`, `min_skew = 0`, `min_idx = 0`. -/
def minSkewIdx (sequence : List Char) : Nat :=
  (gcScan sequence 0 0 0 0).2

/-- `get_gc_skew_ori` (lines 26-53): finds the index of minimum GC skew and
extracts a window around it, with Python slice semantics.
`sequence[start:]` for negative `start` is the last `|start|` characters
(clamped), hence `drop (length - (half - min_idx))`; `sequence[:end]` is
`take end` (clamped); `sequence[start:end]` is `take (end - start) ∘ drop
start`. -/
def get_gc_skew_ori (sequence : List Char) (window_size : Nat := 600) :
    List Char × Nat :=
  let min_idx := minSkewIdx sequence
  let length := sequence.length
  let half := window_size / 2
  let ori_seq :=
    if min_idx < half then
      sequence.drop (length - (half - min_idx)) ++ sequence.take (min_idx + half)
    else if length < min_idx + half then
      sequence.drop (min_idx - half) ++ sequence.take (min_idx + half - length)
    else
      (sequence.drop (min_idx - half)).take (min_idx + half - (min_idx - half))
  (ori_seq, min_idx)

/-- The running skew value after each base, starting from `skew`. -/
def skewValsFrom (skew : Int) : List Char → List Int
  | [] => []
  | base :: rest =>
    let s := skewStep base skew
    s :: skewValsFrom s rest

/-- The running skew value at each position of the sequence (the list the
spec calls the "skew sequence"). -/
def skewVals (sequence : List Char) : List Int :=
  skewValsFrom 0 sequence

/-- The scan loop expressed on the list of running skew values instead of
the bases; used to reason about which index the scan keeps. -/
def scanSpec : List Int → Int → Nat → Nat → Int × Nat
  | [], min_skew, min_idx, _ => (min_skew, min_idx)
  | v :: rest, min_skew, min_idx, i =>
    if v < min_skew then scanSpec rest v i (i + 1)
    else scanSpec rest min_skew min_idx (i + 1)

/-- `BIOBRICK_SCAR = "TACTAGAG"` (line 13). -/
def BIOBRICK_SCAR : List Char := ['T', 'A', 'C', 'T', 'A', 'G', 'A', 'G']

/-- `ORI_KEY_IN_DESIGN = "ori_pMB1"` (line 14). -/
def ORI_KEY_IN_DESIGN : String := "ori_pMB1"

/-- Python dict lookup on the association-list model of `markers.json`. -/
def dbLookup : List (String × List Char) → String → Option (List Char)
  | [], _ => none
  | (k, v) :: rest, key => if key = k then some v else dbLookup rest key

/-- Python `key.endswith(suffix)` (line 146). -/
def strEndsWith (key suffix : String) : Bool :=
  List.isSuffixOf suffix.toList key.toList

/-- One iteration of the design-key classification loop (lines 129-153):
the accumulator is `(ori_part, marker_parts, mcs_parts)`. -/
def classifyStep (found_ori_seq : List Char)
    (markers_db : List (String × List Char))
    (acc : List Char × List (List Char) × List (List Char)) (key : String) :
    List Char × List (List Char) × List (List Char) :=
  if key = ORI_KEY_IN_DESIGN then
    (found_ori_seq, acc.2.1, acc.2.2)
  else
    match dbLookup markers_db key with
    | none => acc
    | some part_seq =>
      if strEndsWith key "_site" then (acc.1, acc.2.1, acc.2.2 ++ [part_seq])
      else (acc.1, acc.2.1 ++ [part_seq], acc.2.2)

/-- The whole classification loop, starting from
`ori_part = ""`, `marker_parts = []`, `mcs_parts = []` (lines 125-127). -/
def classifyKeys (design_keys : List String) (found_ori_seq : List Char)
    (markers_db : List (String × List Char)) :
    List Char × List (List Char) × List (List Char) :=
  design_keys.foldl (classifyStep found_ori_seq markers_db) ([], [], [])

/-- One concatenation loop (lines 161-163, 166-168, 173-175): append each
part, preceded by the scar exactly when the accumulator is non-empty
(Python truthiness of `final_plasmid`). -/
def appendParts (scar acc : List Char) : List (List Char) → List Char
  | [] => acc
  | seq :: rest =>
    appendParts scar ((if acc = [] then acc else acc ++ scar) ++ seq) rest

/-- The full concatenation phase (lines 155-176): start from `ori_part`,
then append markers, MCS parts, and default genes. -/
def buildPlasmid (scar ori : List Char)
    (markers mcs defaults : List (List Char)) : List Char :=
  appendParts scar (appendParts scar (appendParts scar ori markers) mcs) defaults

/-- The assembly engine: classification (lines 129-153) followed by
concatenation (lines 155-176).  Default genes are taken in the
collection's own order (`.items()` on an insertion-ordered dict). -/
def assemble (design_keys : List String) (found_ori_seq : List Char)
    (markers_db default_genes_db : List (String × List Char))
    (scar : List Char) : List Char :=
  let c := classifyKeys design_keys found_ori_seq markers_db
  buildPlasmid scar c.1 c.2.1 c.2.2 (default_genes_db.map (fun g => g.2))

/-- The output step (lines 179-191): the file is written only when
`final_plasmid` is non-empty; otherwise failure is reported and nothing is
written. -/
def writeOutput (final_plasmid : List Char) : Option (List Char) :=
  if final_plasmid = [] then none else some final_plasmid

/-- Scar-join of a list of segments: the scar appears exactly between two
consecutive segments, never leading and never doubled.  Used as the
specification shape for the concatenation phase. -/
def scarJoin (sep : List Char) : List (List Char) → List Char
  | [] => []
  | [p] => p
  | p :: q :: rest => p ++ sep ++ scarJoin sep (q :: rest)

/-- Tail form of `scarJoin`: every segment preceded by the scar. -/
def scarTail (sep : List Char) : List (List Char) → List Char
  | [] => []
  | p :: rest => sep ++ p ++ scarTail sep rest

/-- Concatenation of a list of bins (each bin a list of segments). -/
def flatBins : List (List (List Char)) → List (List Char)
  | [] => []
  | b :: rest => b ++ flatBins rest

/-- C1: the spec's concrete scenario is wrong about the code: for
`"GGGGCCCCAAAA"` with `window_size = 4` the running skew never drops
strictly below the initial `min_skew = 0`, so the scan keeps `min_idx = 0`
and the window is `sequence[-2:] + sequence[:2] = "AAGG"`, not index 7 and
window `"CCAA"`. -/
theorem c1_counterexample :
    get_gc_skew_ori
        ['G', 'G', 'G', 'G', 'C', 'C', 'C', 'C', 'A', 'A', 'A', 'A'] 4
      ≠ (['C', 'C', 'A', 'A'], 7) := by
  decide

/-- C1 (amended): for the host sequence `"GGGGCCCCAAAA"` with
`window_size = 4`, `get_gc_skew_ori` returns index 0 (the skew values
`[1,2,3,4,3,2,1,0,0,0,0,0]` never drop strictly below the initial
`min_skew = 0`) and the wrapped window `"AAGG"`. -/
theorem c1_scenario :
    get_gc_skew_ori
        ['G', 'G', 'G', 'G', 'C', 'C', 'C', 'C', 'A', 'A', 'A', 'A'] 4
      = (['A', 'A', 'G', 'G'], 0) := by
  decide

/-- C6: design keys `["geneB_site", "ori_pMB1", "geneA"]`, library
`{"geneA": "AAA", "geneB_site": "TTT"}`, origin part `"OOO"`, scar `"XX"`,
no default genes: the assembled plasmid is `"OOO" + "XX" + "AAA" + "XX" +
"TTT"` — the Marker bin precedes the MCS bin regardless of request order,
and the origin key binds the caller-supplied origin sequence. -/
theorem c6_assembly_scenario :
    assemble ["geneB_site", "ori_pMB1", "geneA"]
        ['O', 'O', 'O']
        [("geneA", ['A', 'A', 'A']), ("geneB_site", ['T', 'T', 'T'])]
        []
        ['X', 'X']
      = ['O', 'O', 'O', 'X', 'X', 'A', 'A', 'A', 'X', 'X', 'T', 'T', 'T'] := by
  decide

/-- The scan loop over bases agrees with the scan loop over the list of
running skew values. -/
theorem gcScan_eq_scanSpec (sequence : List Char) :
    ∀ (skew min_skew : Int) (min_idx i : Nat),
      gcScan sequence skew min_skew min_idx i
        = scanSpec (skewValsFrom skew sequence) min_skew min_idx i := by
  induction sequence with
  | nil => intro skew min_skew min_idx i; rfl
  | cons base rest ih =>
    intro skew min_skew min_idx i
    simp only [gcScan, skewValsFrom, scanSpec]
    split
    · exact ih ..
    · exact ih ..

/-- If no value is strictly below the running minimum, the scan keeps the
incoming minimum and index. -/
theorem scanSpec_no_update (vals : List Int) :
    ∀ (min_skew : Int) (min_idx i : Nat),
      (∀ v ∈ vals, ¬ v < min_skew) →
      scanSpec vals min_skew min_idx i = (min_skew, min_idx) := by
  induction vals with
  | nil => intro min_skew min_idx i _; rfl
  | cons v rest ih =>
    intro min_skew min_idx i h
    have hv : ¬ v < min_skew := h v (List.mem_cons_self v rest)
    simp only [scanSpec, if_neg hv]
    exact ih min_skew min_idx (i + 1) (fun w hw => h w (List.mem_cons_of_mem v hw))

/-- When the least value `m` of the list is strictly below the incoming
minimum, the scan returns `m` together with the offset of the first
position where `m` occurs. -/
theorem scanSpec_first_min (m : Int) (vals : List Int) :
    ∀ (min_skew : Int) (min_idx i : Nat),
      m ∈ vals → (∀ v ∈ vals, m ≤ v) → m < min_skew →
      scanSpec vals min_skew min_idx i
        = (m, i + vals.findIdx (fun v => v == m)) := by
  induction vals with
  | nil => intro min_skew min_idx i hmem _ _; exact absurd hmem (List.not_mem_nil m)
  | cons v rest ih =>
    intro min_skew min_idx i hmem hle hlt
    by_cases hv : v = m
    · subst hv
      simp only [scanSpec, if_pos hlt, List.findIdx_cons, beq_self_eq_true, cond_true,
        Nat.add_zero]
      exact scanSpec_no_update rest v i (i + 1)
        (fun w hw => not_lt.mpr (hle w (List.mem_cons_of_mem v hw)))
    · have hmem' : m ∈ rest := by
        rcases List.mem_cons.mp hmem with h | h
        · exact absurd h.symm hv
        · exact h
      have hle' : ∀ w ∈ rest, m ≤ w := fun w hw => hle w (List.mem_cons_of_mem v hw)
      have hlt' : m < v :=
        lt_of_le_of_ne (hle v (List.mem_cons_self v rest)) (fun h => hv h.symm)
      have hbeq : (v == m) = false := beq_eq_false_iff_ne.mpr hv
      by_cases hvs : v < min_skew
      · simp only [scanSpec, if_pos hvs, List.findIdx_cons, hbeq, cond_false]
        rw [ih v i (i + 1) hmem' hle' hlt']
        congr 1
        omega
      · simp only [scanSpec, if_neg hvs, List.findIdx_cons, hbeq, cond_false]
        rw [ih min_skew min_idx (i + 1) hmem' hle' hlt]
        congr 1
        omega

/-- C2 (amended): when the minimum `m` of the running skew values is
strictly negative (so it is strictly below the initial `min_skew = 0`)
and attained at one or more positions, `get_gc_skew_ori` returns the
index of the first position where `m` occurs — ties keep the earliest
occurrence because the scan updates only on strict `skew < min_skew`.
When the minimum is not negative this fails (see the counterexample):
the scan then keeps the initial index 0. -/
theorem gc_skew_first_min (sequence : List Char) (window_size : Nat) (m : Int)
    (hmem : m ∈ skewVals sequence)
    (hle : ∀ v ∈ skewVals sequence, m ≤ v)
    (hneg : m < 0) :
    (get_gc_skew_ori sequence window_size).2
      = (skewVals sequence).findIdx (fun v => v == m) := by
  have h2 : (get_gc_skew_ori sequence window_size).2 = (gcScan sequence 0 0 0 0).2 := rfl
  rw [h2, gcScan_eq_scanSpec]
  have hvals : skewValsFrom 0 sequence = skewVals sequence := rfl
  rw [hvals, scanSpec_first_min m (skewVals sequence) 0 0 0 hmem hle hneg]
  simp

/-- C2 witness: for `"GCCGC"` the skew values are `[1, 0, -1, 0, -1]`,
whose minimum `-1` occurs at positions 2 and 4; the scan returns the
first, index 2. -/
theorem gc_skew_first_min_witness :
    (get_gc_skew_ori ['G', 'C', 'C', 'G', 'C'] 600).2 = 2 :=
  (gc_skew_first_min ['G', 'C', 'C', 'G', 'C'] 600 (-1)
    (by decide) (by decide) (by decide)).trans (by decide)

/-- C2 counterexample: for `"GCAA"` the running skew values are
`[1, 0, 0, 0]`; the minimum value 0 is attained at the three positions
1, 2, 3 (first occurrence: index 1), yet `get_gc_skew_ori` returns index
0, because the initial `min_skew = 0` is never strictly beaten.  So the
claim fails for sequences whose skew minimum is not negative. -/
theorem c2_counterexample :
    skewVals ['G', 'C', 'A', 'A'] = [1, 0, 0, 0]
      ∧ (get_gc_skew_ori ['G', 'C', 'A', 'A'] 600).2 = 0 := by
  decide

/-- C4 counterexample: for the odd `window_size = 5` and sequence
`"AAACAAAA"` (minimum-skew index 3, no wraparound), the window is
`sequence[1:5] = "AACA"` of length 4 — not `5/2 = 2` bases before plus
`5/2 + 1 = 3` bases after, which would total 5. -/
theorem c4_counterexample :
    get_gc_skew_ori ['A', 'A', 'A', 'C', 'A', 'A', 'A', 'A'] 5
        = (['A', 'A', 'C', 'A'], 3)
      ∧ ((get_gc_skew_ori ['A', 'A', 'A', 'C', 'A', 'A', 'A', 'A'] 5).1).length
          ≠ 5 / 2 + (5 / 2 + 1) := by
  decide

/-- C4 (amended): for every odd `window_size`, when the window does not
wrap, the `//2` integer division makes the window span `window_size / 2`
bases strictly before the minimum-skew index plus `window_size / 2` bases
starting at that index, for a total of `window_size - 1` bases — one
short of `window_size`, not `window_size / 2` before and
`window_size / 2 + 1` after. -/
theorem odd_window_asymmetric (sequence : List Char) (window_size : Nat)
    (hodd : window_size % 2 = 1)
    (hlo : window_size / 2 ≤ (get_gc_skew_ori sequence window_size).2)
    (hhi : (get_gc_skew_ori sequence window_size).2 + window_size / 2
        ≤ sequence.length) :
    (get_gc_skew_ori sequence window_size).1
        = (sequence.drop
              ((get_gc_skew_ori sequence window_size).2 - window_size / 2)).take
              (window_size / 2)
          ++ (sequence.drop ((get_gc_skew_ori sequence window_size).2)).take
              (window_size / 2)
      ∧ ((get_gc_skew_ori sequence window_size).1).length = window_size - 1 := by
  have hlo' : window_size / 2 ≤ minSkewIdx sequence := hlo
  have hhi' : minSkewIdx sequence + window_size / 2 ≤ sequence.length := hhi
  have h1 : get_gc_skew_ori sequence window_size
      = ((sequence.drop (minSkewIdx sequence - window_size / 2)).take
          (minSkewIdx sequence + window_size / 2
            - (minSkewIdx sequence - window_size / 2)),
         minSkewIdx sequence) := by
    simp only [get_gc_skew_ori]
    rw [if_neg (by omega), if_neg (by omega)]
  constructor
  · rw [h1]
    have e1 : minSkewIdx sequence + window_size / 2
        - (minSkewIdx sequence - window_size / 2)
        = window_size / 2 + window_size / 2 := by omega
    rw [e1, List.take_add, List.drop_drop]
    have e2 : minSkewIdx sequence - window_size / 2 + window_size / 2
        = minSkewIdx sequence := by omega
    rw [e2]
  · rw [h1]
    simp only [List.length_take, List.length_drop]
    omega

/-- C4 witness: `"AAACAAAA"` with `window_size = 5`: index 3, window
`"AACA"` = 2 bases before index 3 plus 2 bases from index 3 on, length
`5 - 1 = 4`. -/
theorem odd_window_asymmetric_witness :
    (get_gc_skew_ori ['A', 'A', 'A', 'C', 'A', 'A', 'A', 'A'] 5).1
        = ((['A', 'A', 'A', 'C', 'A', 'A', 'A', 'A'] : List Char).drop
              ((get_gc_skew_ori ['A', 'A', 'A', 'C', 'A', 'A', 'A', 'A'] 5).2
                - 5 / 2)).take (5 / 2)
          ++ ((['A', 'A', 'A', 'C', 'A', 'A', 'A', 'A'] : List Char).drop
              ((get_gc_skew_ori ['A', 'A', 'A', 'C', 'A', 'A', 'A', 'A'] 5).2)).take
              (5 / 2)
      ∧ ((get_gc_skew_ori ['A', 'A', 'A', 'C', 'A', 'A', 'A', 'A'] 5).1).length
          = 5 - 1 :=
  odd_window_asymmetric ['A', 'A', 'A', 'C', 'A', 'A', 'A', 'A'] 5
    (by decide) (by decide) (by decide)

/-- C5: for `window_size = 600` and a sequence of length at least 600, if
the minimum-skew index lies in `[0, 299]` or `[length-299, length-1]`,
the extracted window wraps around the boundary (it is a non-empty suffix
of the sequence followed by a non-empty prefix) and its length is exactly
600. -/
theorem window600_wraparound (sequence : List Char)
    (hlen : 600 ≤ sequence.length)
    (hidx : (get_gc_skew_ori sequence 600).2 ≤ 299
        ∨ (sequence.length - 299 ≤ (get_gc_skew_ori sequence 600).2
            ∧ (get_gc_skew_ori sequence 600).2 ≤ sequence.length - 1)) :
    ((get_gc_skew_ori sequence 600).1).length = 600
      ∧ ∃ a b, a ≠ [] ∧ b ≠ []
          ∧ (get_gc_skew_ori sequence 600).1 = a ++ b
          ∧ a <:+ sequence ∧ b <+: sequence := by
  have h2 : (get_gc_skew_ori sequence 600).2 = minSkewIdx sequence := rfl
  rw [h2] at hidx
  rcases hidx with hcase | ⟨hge, hle⟩
  · have h1 : get_gc_skew_ori sequence 600
        = (sequence.drop (sequence.length - (600 / 2 - minSkewIdx sequence))
            ++ sequence.take (minSkewIdx sequence + 600 / 2),
           minSkewIdx sequence) := by
      simp only [get_gc_skew_ori]
      rw [if_pos (by omega)]
    have la : (sequence.drop
        (sequence.length - (600 / 2 - minSkewIdx sequence))).length
        = 600 / 2 - minSkewIdx sequence := by
      simp only [List.length_drop]
      omega
    have lb : (sequence.take (minSkewIdx sequence + 600 / 2)).length
        = minSkewIdx sequence + 600 / 2 := by
      simp only [List.length_take]
      omega
    constructor
    · rw [h1]
      simp only [List.length_append, la, lb]
      omega
    · refine ⟨sequence.drop (sequence.length - (600 / 2 - minSkewIdx sequence)),
        sequence.take (minSkewIdx sequence + 600 / 2), ?_, ?_, ?_, ?_, ?_⟩
      · intro hnil
        rw [hnil] at la
        simp only [List.length_nil] at la
        omega
      · intro hnil
        rw [hnil] at lb
        simp only [List.length_nil] at lb
        omega
      · rw [h1]
      · exact List.drop_suffix _ _
      · exact List.take_prefix _ _
  · have h1 : get_gc_skew_ori sequence 600
        = (sequence.drop (minSkewIdx sequence - 600 / 2)
            ++ sequence.take (minSkewIdx sequence + 600 / 2 - sequence.length),
           minSkewIdx sequence) := by
      simp only [get_gc_skew_ori]
      rw [if_neg (by omega), if_pos (by omega)]
    have la : (sequence.drop (minSkewIdx sequence - 600 / 2)).length
        = sequence.length - (minSkewIdx sequence - 600 / 2) := by
      simp only [List.length_drop]
    have lb : (sequence.take
        (minSkewIdx sequence + 600 / 2 - sequence.length)).length
        = minSkewIdx sequence + 600 / 2 - sequence.length := by
      simp only [List.length_take]
      omega
    constructor
    · rw [h1]
      simp only [List.length_append, la, lb]
      omega
    · refine ⟨sequence.drop (minSkewIdx sequence - 600 / 2),
        sequence.take (minSkewIdx sequence + 600 / 2 - sequence.length),
        ?_, ?_, ?_, ?_, ?_⟩
      · intro hnil
        rw [hnil] at la
        simp only [List.length_nil] at la
        omega
      · intro hnil
        rw [hnil] at lb
        simp only [List.length_nil] at lb
        omega
      · rw [h1]
      · exact List.drop_suffix _ _
      · exact List.take_prefix _ _

/-- C5 witness: the all-`'A'` sequence of length 600 has minimum-skew
index 0 (within `[0, 299]`), and the extracted window has length exactly
600. -/
theorem window600_wraparound_witness :
    600 ≤ (List.replicate 600 'A').length
      ∧ ((get_gc_skew_ori (List.replicate 600 'A') 600).1).length = 600 :=
  ⟨by simp,
   (window600_wraparound (List.replicate 600 'A') (by simp)
     (Or.inl (by decide))).1⟩

/-- `scarJoin` of a non-empty segment list is the head followed by the
scar-prefixed tail. -/
theorem scarJoin_cons (sep p : List Char) (ps : List (List Char)) :
    scarJoin sep (p :: ps) = p ++ scarTail sep ps := by
  induction ps generalizing p with
  | nil => simp [scarJoin, scarTail]
  | cons q rest ih =>
    simp [scarJoin, scarTail, ih q]

/-- `scarTail` distributes over list append. -/
theorem scarTail_append (sep : List Char) (xs ys : List (List Char)) :
    scarTail sep (xs ++ ys) = scarTail sep xs ++ scarTail sep ys := by
  induction xs with
  | nil => simp [scarTail]
  | cons p rest ih => simp [scarTail, ih]

/-- A concatenation loop starting from a non-empty accumulator appends the
scar before every part. -/
theorem appendParts_ne_nil (scar : List Char) (parts : List (List Char)) :
    ∀ acc : List Char, acc ≠ [] →
      appendParts scar acc parts = acc ++ scarTail scar parts := by
  induction parts with
  | nil => intro acc _; simp [appendParts, scarTail]
  | cons seq rest ih =>
    intro acc hacc
    simp only [appendParts, if_neg hacc, scarTail]
    rw [ih (acc ++ scar ++ seq) (by simp [hacc])]
    simp

/-- Absorbing an appended head into a scar-join. -/
theorem scarJoin_append_head (sep a b : List Char) (ps : List (List Char)) :
    scarJoin sep ((a ++ b) :: ps) = a ++ scarJoin sep (b :: ps) := by
  cases ps with
  | nil => simp [scarJoin]
  | cons q rest => simp [scarJoin]

/-- A concatenation loop starting from the empty accumulator produces the
scar-join of the parts, provided every part is non-empty. -/
theorem appendParts_nil (scar : List Char) (parts : List (List Char))
    (h : ∀ p ∈ parts, p ≠ []) :
    appendParts scar [] parts = scarJoin scar parts := by
  cases parts with
  | nil => rfl
  | cons p rest =>
    have hp : p ≠ [] := h p (List.mem_cons_self p rest)
    have e : appendParts scar [] (p :: rest) = appendParts scar p rest := by
      simp [appendParts]
    rw [e, appendParts_ne_nil scar rest p hp, scarJoin_cons]

/-- A scar-join of non-empty segments is non-empty exactly when the
segment list is. -/
theorem scarJoin_ne_nil (sep : List Char) (la : List (List Char))
    (h : ∀ p ∈ la, p ≠ []) (hla : la ≠ []) : scarJoin sep la ≠ [] := by
  cases la with
  | nil => exact absurd rfl hla
  | cons p rest =>
    rw [scarJoin_cons]
    intro hnil
    exact h p (List.mem_cons_self p rest) (List.append_eq_nil.mp hnil).1

/-- Appending further parts to an accumulator that is already a scar-join
extends the scar-join, provided all segments involved are non-empty. -/
theorem appendParts_scarJoin (scar : List Char) (la parts : List (List Char))
    (hla : ∀ p ∈ la, p ≠ []) (hp : ∀ p ∈ parts, p ≠ []) :
    appendParts scar (scarJoin scar la) parts = scarJoin scar (la ++ parts) := by
  cases la with
  | nil =>
    simp only [scarJoin, List.nil_append]
    exact appendParts_nil scar parts hp
  | cons a rest =>
    have hne : scarJoin scar (a :: rest) ≠ [] :=
      scarJoin_ne_nil scar (a :: rest) hla (by simp)
    rw [appendParts_ne_nil scar parts _ hne]
    rw [List.cons_append, scarJoin_cons, scarJoin_cons, scarTail_append]
    simp

/-- `flatBins` ignores empty bins. -/
theorem flatBins_filter (bins : List (List (List Char))) :
    flatBins (bins.filter (fun b => !b.isEmpty)) = flatBins bins := by
  induction bins with
  | nil => rfl
  | cons b rest ih =>
    by_cases hb : b = []
    · subst hb
      simpa [List.filter, flatBins] using ih
    · have : b.isEmpty = false := by
        cases b with
        | nil => exact absurd rfl hb
        | cons x xs => rfl
      simp [List.filter_cons, this, flatBins, ih]

/-- `flatBins` distributes over append. -/
theorem flatBins_append (xs ys : List (List (List Char))) :
    flatBins (xs ++ ys) = flatBins xs ++ flatBins ys := by
  induction xs with
  | nil => rfl
  | cons b rest ih => simp [flatBins, ih]

/-- In a scar-join, the joins of two adjacent non-empty groups appear as a
contiguous substring separated by exactly one scar. -/
theorem scarJoin_adjacent_infix (sep : List Char)
    (fu A B fv : List (List Char)) (hA : A ≠ []) (hB : B ≠ []) :
    (scarJoin sep A ++ sep ++ scarJoin sep B)
      <:+: scarJoin sep (fu ++ A ++ B ++ fv) := by
  obtain ⟨a, A', rfl⟩ : ∃ a A', A = a :: A' := by
    cases A with
    | nil => exact absurd rfl hA
    | cons a A' => exact ⟨a, A', rfl⟩
  obtain ⟨b, B', rfl⟩ : ∃ b B', B = b :: B' := by
    cases B with
    | nil => exact absurd rfl hB
    | cons b B' => exact ⟨b, B', rfl⟩
  cases fu with
  | nil =>
    refine ⟨[], scarTail sep fv, ?_⟩
    simp only [List.nil_append, List.cons_append, scarJoin_cons, scarTail_append,
      scarTail]
    simp
  | cons q qs =>
    refine ⟨q ++ scarTail sep qs ++ sep, scarTail sep fv, ?_⟩
    simp only [List.cons_append, scarJoin_cons, scarTail_append, scarTail]
    simp

/-- C3 counterexample: part sequences can be empty (nothing in the code or
library forbids `""` values), and the concatenation loop inserts the scar
before an empty part whenever the accumulator is non-empty: with origin
part `"A"` and marker parts `["", "B"]` the scar is inserted next to an
empty segment and the output contains two adjacent scar copies with
nothing between them — negating the claim's "never doubled" conjunct at
this input. -/
theorem c3_counterexample :
    buildPlasmid BIOBRICK_SCAR ['A'] [[], ['B']] [] []
      = ['A'] ++ BIOBRICK_SCAR ++ BIOBRICK_SCAR ++ ['B']
      ∧ (BIOBRICK_SCAR ++ BIOBRICK_SCAR)
          <:+: buildPlasmid BIOBRICK_SCAR ['A'] [[], ['B']] [] [] := by
  constructor
  · decide
  · exact ⟨['A'], ['B'], by decide⟩

/-- C3 (amended): provided every assembled part sequence is non-empty, the
final plasmid is exactly the scar-join of the non-empty segments in the
fixed bin order (so the scar sits only between two adjacent non-empty
segments, never leading and never doubled), and for any two consecutive
non-empty bins `A`, `B` in the fixed order the output contains
`A + scar + B` as a contiguous substring. -/
theorem scar_insertion_law (scar ori : List Char)
    (markers mcs defaults : List (List Char))
    (hM : ∀ p ∈ markers, p ≠ []) (hX : ∀ p ∈ mcs, p ≠ [])
    (hD : ∀ p ∈ defaults, p ≠ []) :
    buildPlasmid scar ori markers mcs defaults
        = scarJoin scar
            ((if ori = [] then [] else [ori]) ++ markers ++ mcs ++ defaults)
      ∧ ∀ u A B v,
          ([if ori = [] then [] else [ori], markers, mcs, defaults].filter
              (fun b => !b.isEmpty)) = u ++ A :: B :: v →
          (scarJoin scar A ++ scar ++ scarJoin scar B)
            <:+: buildPlasmid scar ori markers mcs defaults := by
  set oriL : List (List Char) := if ori = [] then [] else [ori] with horiL
  have hOriL : ∀ p ∈ oriL, p ≠ [] := by
    intro p hp
    by_cases ho : ori = []
    · simp [horiL, ho] at hp
    · simp [horiL, ho] at hp
      rw [hp]
      exact ho
  have hOM : ∀ p ∈ oriL ++ markers, p ≠ [] := by
    intro p hp
    rcases List.mem_append.mp hp with h | h
    · exact hOriL p h
    · exact hM p h
  have hOMX : ∀ p ∈ oriL ++ markers ++ mcs, p ≠ [] := by
    intro p hp
    rcases List.mem_append.mp hp with h | h
    · exact hOM p h
    · exact hX p h
  have hmain : buildPlasmid scar ori markers mcs defaults
      = scarJoin scar (oriL ++ markers ++ mcs ++ defaults) := by
    unfold buildPlasmid
    have e0 : ori = scarJoin scar oriL := by
      by_cases ho : ori = [] <;> simp [horiL, ho, scarJoin]
    rw [e0, appendParts_scarJoin scar oriL markers hOriL hM,
      appendParts_scarJoin scar (oriL ++ markers) mcs hOM hX,
      appendParts_scarJoin scar (oriL ++ markers ++ mcs) defaults hOMX hD]
  refine ⟨hmain, ?_⟩
  intro u A B v hsplit
  have hAmem : A ∈ ([oriL, markers, mcs, defaults].filter
      (fun b => !b.isEmpty)) := by
    rw [hsplit]
    simp
  have hBmem : B ∈ ([oriL, markers, mcs, defaults].filter
      (fun b => !b.isEmpty)) := by
    rw [hsplit]
    simp
  have hA : A ≠ [] := by
    have hpA := List.of_mem_filter hAmem
    intro hnil
    rw [hnil] at hpA
    simp at hpA
  have hB : B ≠ [] := by
    have hpB := List.of_mem_filter hBmem
    intro hnil
    rw [hnil] at hpB
    simp at hpB
  have hbins : oriL ++ markers ++ mcs ++ defaults
      = flatBins [oriL, markers, mcs, defaults] := by
    simp [flatBins]
  have hflat : flatBins [oriL, markers, mcs, defaults]
      = flatBins u ++ A ++ B ++ flatBins v := by
    rw [← flatBins_filter [oriL, markers, mcs, defaults], hsplit,
      flatBins_append]
    simp [flatBins]
  rw [hmain, hbins, hflat]
  exact scarJoin_adjacent_infix scar (flatBins u) A B (flatBins v) hA hB

/-- C3 witness: origin `"O"`, markers `["M"]`, MCS `["S"]`, scar `"XX"`,
no default genes: the output is the scar-join `"O" + "XX" + "M" + "XX" +
"S"`. -/
theorem scar_insertion_law_witness :
    buildPlasmid ['X', 'X'] ['O'] [['M']] [['S']] []
      = ['O'] ++ ['X', 'X'] ++ ['M'] ++ ['X', 'X'] ++ ['S'] :=
  ((scar_insertion_law ['X', 'X'] ['O'] [['M']] [['S']] []
    (by decide) (by decide) (by decide)).1).trans (by decide)

/-- C7 counterexample: the claim quantifies over every key absent from the
part library, but the origin sentinel key is checked before the library:
`"ori_pMB1"` is absent from an empty library, yet requesting it binds the
caller-supplied origin part, so removing it changes the output. -/
theorem c7_counterexample :
    dbLookup [] ORI_KEY_IN_DESIGN = none
      ∧ assemble [ORI_KEY_IN_DESIGN] ['O', 'O', 'O'] [] [] ['X']
          = ['O', 'O', 'O']
      ∧ assemble [] ['O', 'O', 'O'] [] [] ['X'] = []
      ∧ assemble [ORI_KEY_IN_DESIGN] ['O', 'O', 'O'] [] [] ['X']
          ≠ assemble [] ['O', 'O', 'O'] [] [] ['X'] := by
  decide

/-- C7 (amended): for every design-key list, part library, origin part and
default-gene collection, a requested key that is absent from the part
library **and is not the origin sentinel key** contributes nothing:
removing that occurrence leaves the assembled sequence unchanged. -/
theorem missing_key_no_effect (l1 l2 : List String) (key : String)
    (found_ori_seq : List Char)
    (markers_db default_genes_db : List (String × List Char))
    (scar : List Char)
    (hk : key ≠ ORI_KEY_IN_DESIGN)
    (hmiss : dbLookup markers_db key = none) :
    assemble (l1 ++ key :: l2) found_ori_seq markers_db default_genes_db scar
      = assemble (l1 ++ l2) found_ori_seq markers_db default_genes_db scar := by
  have hstep : ∀ acc, classifyStep found_ori_seq markers_db acc key = acc := by
    intro acc
    simp [classifyStep, hk, hmiss]
  unfold assemble classifyKeys
  rw [List.foldl_append, List.foldl_append, List.foldl_cons, hstep]

/-- C7 witness: adding the unknown key `"missing"` to the design
`["geneA"]` leaves the assembly unchanged. -/
theorem missing_key_no_effect_witness :
    assemble ["geneA", "missing"] ['O'] [("geneA", ['A'])] [] ['X']
      = assemble ["geneA"] ['O'] [("geneA", ['A'])] [] ['X'] :=
  missing_key_no_effect ["geneA"] [] "missing" ['O'] [("geneA", ['A'])] []
    ['X'] (by decide) (by decide)

/-- C8: the engine is a total function that never raises: with an empty
part library every non-origin key is skipped and the result is just the
(possibly bound) origin slot followed by the default genes; and the output
step signals failure (writes nothing) exactly when the final assembled
sequence is empty. -/
theorem failure_semantics (design_keys : List String)
    (found_ori_seq : List Char)
    (markers_db default_genes_db : List (String × List Char))
    (scar : List Char) :
    (writeOutput
        (assemble design_keys found_ori_seq markers_db default_genes_db scar)
          = none
      ↔ assemble design_keys found_ori_seq markers_db default_genes_db scar
          = [])
    ∧ assemble design_keys found_ori_seq [] default_genes_db scar
        = appendParts scar
            (if ORI_KEY_IN_DESIGN ∈ design_keys then found_ori_seq else [])
            (default_genes_db.map (fun g => g.2)) := by
  constructor
  · by_cases h :
      assemble design_keys found_ori_seq markers_db default_genes_db scar = []
    · simp [writeOutput, h]
    · simp [writeOutput, h]
  · have hcl : ∀ (keys : List String)
        (acc : List Char × List (List Char) × List (List Char)),
        List.foldl (classifyStep found_ori_seq []) acc keys
          = ((if ORI_KEY_IN_DESIGN ∈ keys then found_ori_seq else acc.1),
             acc.2.1, acc.2.2) := by
      intro keys
      induction keys with
      | nil => intro acc; simp
      | cons k rest ih =>
        intro acc
        rw [List.foldl_cons, ih]
        by_cases hk : k = ORI_KEY_IN_DESIGN
        · subst hk
          simp [classifyStep]
        · have hne : ¬ ORI_KEY_IN_DESIGN = k := fun hkk => hk hkk.symm
          simp [classifyStep, dbLookup, hk, List.mem_cons, hne]
    unfold assemble classifyKeys
    rw [hcl design_keys ([], [], [])]
    rfl

/-- C9: repeated non-origin library keys are never deduplicated: appending
one more occurrence of a key that the design keys already contain appends
that part's sequence once more to its bin (MCS if the key ends in
`"_site"`, Marker otherwise), leaving everything else unchanged. -/
theorem duplicate_key_appended (design_keys : List String) (key : String)
    (found_ori_seq part_seq : List Char)
    (markers_db : List (String × List Char))
    (hmem : key ∈ design_keys) (hk : key ≠ ORI_KEY_IN_DESIGN)
    (hs : dbLookup markers_db key = some part_seq) :
    classifyKeys (design_keys ++ [key]) found_ori_seq markers_db
      = (if strEndsWith key "_site" then
          ((classifyKeys design_keys found_ori_seq markers_db).1,
           (classifyKeys design_keys found_ori_seq markers_db).2.1,
           (classifyKeys design_keys found_ori_seq markers_db).2.2
             ++ [part_seq])
        else
          ((classifyKeys design_keys found_ori_seq markers_db).1,
           (classifyKeys design_keys found_ori_seq markers_db).2.1
             ++ [part_seq],
           (classifyKeys design_keys found_ori_seq markers_db).2.2)) := by
  unfold classifyKeys
  rw [List.foldl_append, List.foldl_cons, List.foldl_nil]
  simp only [classifyStep, if_neg hk, hs]

/-- C9 witness: requesting `"geneA"` twice appends its sequence to the
marker bin twice. -/
theorem duplicate_key_appended_witness :
    classifyKeys ["geneA", "geneA"] ['O'] [("geneA", ['A'])]
      = ([], [['A'], ['A']], []) :=
  (duplicate_key_appended ["geneA"] "geneA" ['O'] ['A'] [("geneA", ['A'])]
    (by decide) (by decide) (by decide)).trans (by decide)

/-- C10: when the design keys never request the origin sentinel key, the
origin slot stays empty and the located origin window does not influence
the output at all: assembling with the found origin window equals
assembling with an empty one. -/
theorem no_origin_requested (design_keys : List String)
    (found_ori_seq : List Char)
    (markers_db default_genes_db : List (String × List Char))
    (scar : List Char)
    (h : ORI_KEY_IN_DESIGN ∉ design_keys) :
    (classifyKeys design_keys found_ori_seq markers_db).1 = []
      ∧ assemble design_keys found_ori_seq markers_db default_genes_db scar
          = assemble design_keys [] markers_db default_genes_db scar := by
  have hind : ∀ (keys : List String), ORI_KEY_IN_DESIGN ∉ keys →
      ∀ (o1 o2 : List Char)
        (acc : List Char × List (List Char) × List (List Char)),
        List.foldl (classifyStep o1 markers_db) acc keys
          = List.foldl (classifyStep o2 markers_db) acc keys := by
    intro keys
    induction keys with
    | nil => intro _ o1 o2 acc; rfl
    | cons k rest ih =>
      intro hmem o1 o2 acc
      have hk : k ≠ ORI_KEY_IN_DESIGN := by
        intro hkk
        exact hmem (by rw [hkk]; exact List.mem_cons_self ..)
      have hstep : classifyStep o1 markers_db acc k
          = classifyStep o2 markers_db acc k := by
        simp [classifyStep, hk]
      rw [List.foldl_cons, List.foldl_cons, hstep]
      exact ih (fun hm => hmem (List.mem_cons_of_mem k hm)) o1 o2 _
  have hslot : ∀ (keys : List String), ORI_KEY_IN_DESIGN ∉ keys →
      ∀ (acc : List Char × List (List Char) × List (List Char)),
        (List.foldl (classifyStep found_ori_seq markers_db) acc keys).1
          = acc.1 := by
    intro keys
    induction keys with
    | nil => intro _ acc; rfl
    | cons k rest ih =>
      intro hmem acc
      have hk : k ≠ ORI_KEY_IN_DESIGN := by
        intro hkk
        exact hmem (by rw [hkk]; exact List.mem_cons_self ..)
      have hstep1 : (classifyStep found_ori_seq markers_db acc k).1
          = acc.1 := by
        simp only [classifyStep, if_neg hk]
        cases dbLookup markers_db k with
        | none => rfl
        | some s => by_cases hsuf : strEndsWith k "_site" <;> simp [hsuf]
      rw [List.foldl_cons,
        ih (fun hm => hmem (List.mem_cons_of_mem k hm)) _, hstep1]
  constructor
  · exact hslot design_keys h ([], [], [])
  · unfold assemble
    have hcl : classifyKeys design_keys found_ori_seq markers_db
        = classifyKeys design_keys [] markers_db := by
      unfold classifyKeys
      exact hind design_keys h found_ori_seq [] ([], [], [])
    rw [hcl]

/-- C10 witness: a design without `"ori_pMB1"` leaves the origin slot
empty, and the assembled output is independent of the located origin
window. -/
theorem no_origin_requested_witness :
    (classifyKeys ["geneA"] ['O'] [("geneA", ['A'])]).1 = []
      ∧ assemble ["geneA"] ['O'] [("geneA", ['A'])] [] ['X']
          = assemble ["geneA"] [] [("geneA", ['A'])] [] ['X'] :=
  no_origin_requested ["geneA"] ['O'] [("geneA", ['A'])] [] ['X'] (by decide)
